import Mathlib

/-!
Verification development for the transcript post-processing and export pipeline of
mvp-echo-scribe (frontend/src/utils/post-processing.ts, export.ts, highlight-text.tsx).

Conventions of the shallow embedding:
* JS strings are Lean `String`s; the scanning loops of the regex replacements used by the
  code are written as structural recursions over `List Char` so that every definition is
  executable by kernel reduction.
* JS `number` time values are embedded as `ℚ`; the code only ever adds, subtracts and
  compares them, so rational arithmetic is a faithful model of the float arithmetic for
  the properties stated here.
* `undefined`-able fields are `Option`s; JS truthiness tests on strings additionally
  check for `""` and are embedded as such at every use site.
* The JS regular-expression engine is opaque for arbitrary user patterns; it enters the
  model as an explicit `RegexEngine` parameter whose failure (`none`) embeds the
  exception thrown by `new RegExp` on a malformed pattern.  The two fixed pattern
  shapes the code relies on (word-bounded literals, the cleanup and redaction patterns)
  are embedded concretely by scanners that implement the documented semantics of those
  patterns.
-/

namespace Scribe

/-! ### JS character classes and `String.prototype.trim` -/

/-- Word characters of the JS regex class `\w` (and of the `\b` boundary): ASCII
letters, digits and underscore. -/
def isWordChar (c : Char) : Bool :=
  c.isAlpha || c.isDigit || c == '_'

/-- Whitespace characters of the JS regex class `\s` and of `String.prototype.trim`
(the ASCII ones: space, tab, line feed, carriage return, vertical tab, form feed). -/
def jsWs (c : Char) : Bool :=
  c == ' ' || c == '\t' || c == '\n' || c == '\r' || c == Char.ofNat 11 || c == Char.ofNat 12

/-- Embedding of `String.prototype.trim` on character lists: drop leading and trailing
whitespace. -/
def jsTrimList (cs : List Char) : List Char :=
  ((cs.dropWhile jsWs).reverse.dropWhile jsWs).reverse

/-- Embedding of `String.prototype.trim`. -/
def jsTrim (s : String) : String :=
  String.mk (jsTrimList s.data)

/-! ### The fixed cleanup pass of `applyTextRules`

The source runs `result.replace(/ {2,}/g, " ").replace(/,\s*,/g, ",").trim()`.
`squeeze` is the first replacement: scanning left to right, every maximal run of two or
more spaces is replaced by a single space (equivalently: a space whose predecessor is a
space is dropped).  `commaFixRun` is the second: scanning left to right, each match of
`,\s*,` (a comma, greedily many whitespace characters, a comma) is replaced by a single
comma and the scan resumes after the match, exactly like the JS global replace. -/

/-- Embedding of `replace(/ {2,}/g, " ")`: the flag records whether the previous kept
position was a space. -/
def squeeze : Bool → List Char → List Char
  | _, [] => []
  | prevSpace, c :: rest =>
    if c = ' ' then
      if prevSpace then squeeze true rest else ' ' :: squeeze true rest
    else c :: squeeze false rest

/-- Length of the whitespace run and presence of the closing comma for a `,\s*,` match
whose opening comma has just been read: returns `some n` when the remaining text starts
with `n` whitespace characters followed by `,`. -/
def commaMatchTail (rest : List Char) : Option Nat :=
  let ws := rest.takeWhile jsWs
  match rest.drop ws.length with
  | ',' :: _ => some ws.length
  | _ => none

/-- Embedding of `replace(/,\s*,/g, ",")`.  The `Nat` state counts characters of the
current match still to be consumed silently (the scan resumes after a match). -/
def commaFixRun : Nat → List Char → List Char
  | _, [] => []
  | skip + 1, _ :: rest => commaFixRun skip rest
  | 0, c :: rest =>
    if c = ',' then
      match commaMatchTail rest with
      | some n => ',' :: commaFixRun (n + 1) rest
      | none => ',' :: commaFixRun 0 rest
    else c :: commaFixRun 0 rest

/-- Decides whether `,\s*,` still matches anywhere in the text (used to state when the
comma collapse is a no-op). -/
def hasCommaPair : List Char → Bool
  | [] => false
  | c :: rest => (c == ',' && (commaMatchTail rest).isSome) || hasCommaPair rest

/-- The fixed cleanup pass at the end of `applyTextRules` (post-processing.ts line 83):
collapse space runs, collapse comma pairs, trim. -/
def cleanup (s : String) : String :=
  String.mk (jsTrimList (commaFixRun 0 (squeeze false s.data)))

/-! ### Word-bounded literal replacement

For a non-regex rule the source builds `new RegExp("\\b" + escapeRegex(rule.find) +
"\\b", flags)` and replaces globally.  Escaping every metacharacter makes the pattern
match `rule.find` literally; `\b` holds at a position iff exactly one of the adjacent
characters is a word character (positions outside the string count as non-word).
`wbRun` implements this matcher: it scans the text once, firing at each position where
the literal matches with both boundaries satisfied, emits the replacement, and resumes
after the match (the `Nat` state counts matched characters still to consume). -/

/-- Case-insensitive-capable character comparison (`i` flag). -/
def charEqCI (ci : Bool) (a b : Char) : Bool :=
  if ci then a.toLower == b.toLower else a == b

/-- Does the text start with the pattern characters (under the given case rule)? -/
def startsWithCI (ci : Bool) : List Char → List Char → Bool
  | [], _ => true
  | _ :: _, [] => false
  | f :: fs, c :: cs => charEqCI ci f c && startsWithCI ci fs cs

/-- Word-character status of the first character of a list (`false` past the end,
matching `\b` at the string borders). -/
def headIsWord (cs : List Char) : Bool :=
  match cs.head? with
  | some c => isWordChar c
  | none => false

/-- Word-character status of the last character of a list (`false` for the empty
list). -/
def lastIsWord (cs : List Char) : Bool :=
  match cs.getLast? with
  | some c => isWordChar c
  | none => false

/-- Fire condition of the word-bounded literal matcher at the current scan position:
the (nonempty) literal matches here, the boundary before the match holds, and the
boundary after the match holds. -/
def wbFires (ci : Bool) (find : List Char) (prevW : Bool) (text : List Char) : Bool :=
  !find.isEmpty && startsWithCI ci find text &&
    (prevW != headIsWord text) &&
    (lastIsWord (text.take find.length) != headIsWord (text.drop find.length))

/-- One-pass global replace of the word-bounded literal pattern.  `prevW` is the
word-character status of the previous input character; after a fired match the scan
resumes after the match with `prevW` the status of the last matched character. -/
def wbRun (ci : Bool) (find repl : List Char) : Nat → Bool → List Char → List Char
  | _, _, [] => []
  | skip + 1, prevW, _ :: rest => wbRun ci find repl skip prevW rest
  | 0, prevW, c :: rest =>
    if wbFires ci find prevW (c :: rest) then
      repl ++ wbRun ci find repl (find.length - 1) (lastIsWord ((c :: rest).take find.length)) rest
    else
      c :: wbRun ci find repl 0 (isWordChar c) rest

/-- Embedding of `text.replace(new RegExp("\\b" + escapeRegex(find) + "\\b", flags),
replace)` where the flags contain `g` and may contain `i`. -/
def wbReplace (ci : Bool) (find repl text : String) : String :=
  String.mk (wbRun ci find.data repl.data 0 false text.data)

/-! ### The rule engine (`applyTextRules`, post-processing.ts lines 61-85) -/

/-- Embedding of `escapeRegex` (post-processing.ts lines 61-63): prefix a backslash to
every regex metacharacter. -/
def escapeRegex (s : String) : String :=
  String.mk ((s.data.map fun c =>
    if c ∈ ['.', '*', '+', '?', '^', '$', '{', '}', '(', ')', '|', '[', ']', '\\']
    then ['\\', c] else [c]).flatten)

/-- One text-transformation rule (types.ts `TextRule`). -/
structure TextRule where
  name : String
  find : String
  replace : String
  isRegex : Bool
  flags : String
  category : String
  enabled : Bool
deriving DecidableEq

/-- The effective flag string of a rule (post-processing.ts lines 70-73): default to
`"gi"` when `flags` is empty (JS falsy), then prepend `"g"` unless already present. -/
def effectiveFlags (ruleFlags : String) : String :=
  let flags := if ruleFlags = "" then "gi" else ruleFlags
  if flags.data.contains 'g' then flags else "g" ++ flags

/-- Semantics of one compiled pattern: the global-replace action it performs on a text. -/
def RegexAction : Type := String → String

/-- The JS regex engine for arbitrary user patterns, abstracted: given pattern source
and flags it returns the replace action, or `none` when `new RegExp` throws on a
malformed pattern. -/
def RegexEngine : Type := String → String → Option RegexAction

/-- A degenerate engine on which every pattern is malformed (usable whenever no
`isRegex` rule is involved). -/
def noRegex : RegexEngine := fun _ _ => none

/-- Compilation of one rule (post-processing.ts lines 74-76): an `isRegex` rule goes to
the abstract engine and may fail; a literal rule compiles to the word-bounded literal
matcher (escaping makes it literal, so this compilation never fails), case-insensitive
iff the effective flags contain `i`. -/
def compileRule (re : RegexEngine) (rule : TextRule) : Option RegexAction :=
  let safeFlags := effectiveFlags rule.flags
  if rule.isRegex then re rule.find safeFlags
  else some (fun text => wbReplace (safeFlags.data.contains 'i') rule.find rule.replace text)

/-- One iteration of the rule loop: disabled or empty-`find` rules are skipped, a rule
whose compilation or application throws leaves the running text unchanged (the
`try`/`catch` of lines 69-80). -/
def applyRuleStep (re : RegexEngine) (result : String) (rule : TextRule) : String :=
  if !rule.enabled || rule.find = "" then result
  else
    match compileRule re rule with
    | some act => act result
    | none => result

/-- The rule loop of `applyTextRules` before the cleanup pass. -/
def rulesPass (re : RegexEngine) (text : String) (rules : List TextRule) : String :=
  rules.foldl (applyRuleStep re) text

/-- Embedding of `applyTextRules` (post-processing.ts lines 65-85): run every rule in
list order, then the fixed cleanup pass. -/
def applyTextRules (re : RegexEngine) (text : String) (rules : List TextRule) : String :=
  cleanup (rulesPass re text rules)

/-! ### Data model (types.ts)

The JS field `end` is a Lean keyword and is embedded as `stop`; all other field names
are kept.  Optional fields are `Option`s. -/

/-- One unit of recognized speech (types.ts `Segment`). -/
structure Segment where
  id : Nat := 0
  start : ℚ
  stop : ℚ
  text : String
  speaker : Option String := none
  originalSpeaker : Option String := none
  no_speech_prob : Option ℚ := none
deriving DecidableEq

/-- Entity counts carried on a paragraph by the backend (`Record<string, number>`). -/
def EntityCounts : Type := List (String × Nat)

instance : DecidableEq EntityCounts := by
  unfold EntityCounts
  infer_instance

/-- A derived speaker-grouped paragraph (types.ts `Paragraph`), together with the
optional side-channel annotations the post-processing step carries over. -/
structure Paragraph where
  speaker : Option String := none
  originalSpeaker : Option String := none
  start : ℚ
  stop : ℚ
  text : String
  segment_count : Nat
  entity_counts : Option EntityCounts := none
  sentiment : Option String := none
deriving DecidableEq

/-! ### The paragraph grouper (`detectParagraphsClient`, post-processing.ts lines 7-59) -/

/-- The open paragraph accumulator of the detection loop (the mutable `current` of the
source). -/
structure Current where
  speaker : Option String
  start : ℚ
  stop : ℚ
  texts : List String
  segmentCount : Nat

/-- The accumulator seeded from one segment (lines 14-20 and 35-41 of the source). -/
def initCur (seg : Segment) : Current :=
  { speaker := seg.speaker
    start := seg.start
    stop := seg.stop
    texts := [jsTrim seg.text]
    segmentCount := 1 }

/-- Extension of the open paragraph by one segment (lines 42-46 of the source). -/
def extendCur (cur : Current) (seg : Segment) : Current :=
  { cur with
    stop := seg.stop
    texts := cur.texts ++ [jsTrim seg.text]
    segmentCount := cur.segmentCount + 1 }

/-- Closing the open paragraph (lines 28-34 and 50-56 of the source). -/
def closePara (cur : Current) : Paragraph :=
  { speaker := cur.speaker
    start := cur.start
    stop := cur.stop
    text := String.intercalate " " cur.texts
    segment_count := cur.segmentCount }

/-- The break condition of line 27 of the source: the speaker changed, or the silence
gap `seg.start - current.end` exceeds the threshold. -/
def paraBreak (cur : Current) (seg : Segment) (t : ℚ) : Prop :=
  seg.speaker ≠ cur.speaker ∨ seg.start - cur.stop > t

instance (cur : Current) (seg : Segment) (t : ℚ) : Decidable (paraBreak cur seg t) := by
  unfold paraBreak
  infer_instance

/-- The detection loop over the segments after the first. -/
def paraGo (t : ℚ) (cur : Current) : List Segment → List Paragraph
  | [] => [closePara cur]
  | seg :: rest =>
    if paraBreak cur seg t then closePara cur :: paraGo t (initCur seg) rest
    else paraGo t (extendCur cur seg) rest

/-- Embedding of `detectParagraphsClient` (post-processing.ts lines 7-59). -/
def detectParagraphsClient (segments : List Segment) (silenceThreshold : ℚ) : List Paragraph :=
  match segments with
  | [] => []
  | s :: rest => paraGo silenceThreshold (initCur s) rest

/-! ### The block decomposition induced by the grouper

`detectBlocks` recomputes the same scan but returns, instead of the built paragraphs,
the contiguous blocks of input segments each paragraph is built from (a block is a head
segment plus the list of segments merged into it).  It is the specification device used
to state the partition properties of `detectParagraphsClient`. -/

/-- The accumulator value reached after folding a block tail into its head. -/
def curOf (h : Segment) (tl : List Segment) : Current :=
  tl.foldl extendCur (initCur h)

/-- A paragraph as built from one contiguous block of segments. -/
def mkPara (h : Segment) (tl : List Segment) : Paragraph :=
  closePara (curOf h tl)

/-- The block-level scan mirroring `paraGo` (`acc` holds the tail of the open block in
reverse order). -/
def blocksGo (t : ℚ) (h : Segment) (acc : List Segment) :
    List Segment → List (Segment × List Segment)
  | [] => [(h, acc.reverse)]
  | seg :: rest =>
    if paraBreak (curOf h acc.reverse) seg t then
      (h, acc.reverse) :: blocksGo t seg [] rest
    else
      blocksGo t h (seg :: acc) rest

/-- The contiguous blocks of segments underlying `detectParagraphsClient`. -/
def detectBlocks (segments : List Segment) (t : ℚ) : List (Segment × List Segment) :=
  match segments with
  | [] => []
  | s :: rest => blocksGo t s [] rest

/-! ### Post-processing orchestration (`applyPostProcessing`, post-processing.ts 87-141) -/

/-- The subset of `TranscriptionOptions` (types.ts) consumed by `applyPostProcessing`;
the remaining fields of the record are backend plumbing never read by the embedded
code.  `speakerLabels` is the JS string-keyed object, embedded as an association
list. -/
structure TranscriptionOptions where
  diarize : Bool := true
  detectParagraphs : Bool := true
  paragraphSilenceThreshold : ℚ
  textRulesEnabled : Bool := true
  textRules : List TextRule := []
  textRuleCategory : String := "all"
  speakerLabels : List (String × String) := []

/-- Display relabeling of one speaker field (post-processing.ts lines 115-126): the JS
condition `s.speaker && options.speakerLabels[s.speaker]` keeps the original value
unless the speaker is truthy (present and nonempty) and the looked-up label is truthy. -/
def relabelSpeaker (labels : List (String × String)) (sp : Option String) : Option String :=
  match sp with
  | none => none
  | some s =>
    if s = "" then some s
    else
      match labels.lookup s with
      | some v => if v = "" then some s else some v
      | none => some s

/-- Copy of `entity_counts` from a matching raw paragraph (line 105): an object is
truthy whenever present. -/
def carryEntities (m p : Paragraph) : Paragraph :=
  if m.entity_counts.isSome then { p with entity_counts := m.entity_counts } else p

/-- Copy of `sentiment` from a matching raw paragraph (line 106): a string is truthy
only when present and nonempty. -/
def carrySentiment (m p : Paragraph) : Paragraph :=
  match m.sentiment with
  | some s => if s = "" then p else { p with sentiment := m.sentiment }
  | none => p

/-- Carry-over of the side-channel annotations from a previously computed paragraph at
(within 0.01 s of) the same start time (post-processing.ts lines 101-108). -/
def carryOver (rawParagraphs : List Paragraph) (p : Paragraph) : Paragraph :=
  match rawParagraphs.find? (fun rp => |rp.start - p.start| < mkRat 1 100) with
  | some m => carrySentiment m (carryEntities m p)
  | none => p

/-- The result record of `applyPostProcessing`. -/
structure PostResult where
  segments : List Segment
  paragraphs : List Paragraph

/-- Step 1 of `applyPostProcessing` for paragraphs (post-processing.ts lines 97-111):
re-detect from the raw segments with annotation carry-over when paragraph detection and
segments are available, otherwise keep the raw paragraphs; either way stamp
`originalSpeaker` with the raw speaker identifier before any relabeling. -/
def paragraphBase (rawSegments : List Segment) (rawParagraphs : List Paragraph)
    (options : TranscriptionOptions) : List Paragraph :=
  if options.detectParagraphs ∧ rawSegments.length > 0 then
    ((detectParagraphsClient rawSegments options.paragraphSilenceThreshold).map
      fun p => { p with originalSpeaker := p.speaker }).map (carryOver rawParagraphs)
  else
    rawParagraphs.map fun p => { p with originalSpeaker := p.speaker }

/-- Step 2 of `applyPostProcessing` for paragraphs (lines 114 and 121-126): relabel the
display speaker when the label map is nonempty. -/
def labelParagraphs (labels : List (String × String)) (ps : List Paragraph) : List Paragraph :=
  if labels.length > 0 then
    ps.map fun p => { p with speaker := relabelSpeaker labels p.speaker }
  else ps

/-- The relabel step for segments (lines 114-120). -/
def labelSegments (labels : List (String × String)) (ss : List Segment) : List Segment :=
  if labels.length > 0 then
    ss.map fun s => { s with speaker := relabelSpeaker labels s.speaker }
  else ss

/-- The active rules filter of line 131-133: enabled, nonempty `find`, and matching the
active category (or category `"all"`). -/
def activeRulesOf (options : TranscriptionOptions) : List TextRule :=
  options.textRules.filter fun r =>
    r.enabled && r.find != "" &&
      (options.textRuleCategory == "all" || r.category == options.textRuleCategory)

/-- Step 3 of `applyPostProcessing` for paragraphs (lines 130-137): apply the active
rules to the text when text rules are enabled and some rule is active. -/
def ruleParagraphs (re : RegexEngine) (options : TranscriptionOptions)
    (ps : List Paragraph) : List Paragraph :=
  if options.textRulesEnabled ∧ (activeRulesOf options).length > 0 then
    ps.map fun p => { p with text := applyTextRules re p.text (activeRulesOf options) }
  else ps

/-- Step 3 for segments. -/
def ruleSegments (re : RegexEngine) (options : TranscriptionOptions)
    (ss : List Segment) : List Segment :=
  if options.textRulesEnabled ∧ (activeRulesOf options).length > 0 then
    ss.map fun s => { s with text := applyTextRules re s.text (activeRulesOf options) }
  else ss

/-- Embedding of `applyPostProcessing` (post-processing.ts lines 87-141): copy segments
stamping `originalSpeaker`; re-detect paragraphs from the raw segments (with annotation
carry-over) or stamp the raw paragraphs; apply speaker display labels when the label map
is nonempty; apply the enabled rules of the active category when text rules are on. -/
def applyPostProcessing (re : RegexEngine) (rawSegments : List Segment)
    (rawParagraphs : List Paragraph) (options : TranscriptionOptions) : PostResult :=
  { segments :=
      ruleSegments re options (labelSegments options.speakerLabels
        (rawSegments.map fun s => { s with originalSpeaker := s.speaker }))
    paragraphs :=
      ruleParagraphs re options (labelParagraphs options.speakerLabels
        (paragraphBase rawSegments rawParagraphs options)) }

/-! ### Export serialization (export.ts)

The shared timestamp formatter is imported by export.ts from
frontend/src/utils/format-time.ts, a file that is not part of the sources available
here; `formatTimestamp` below is therefore modelled from the spec (see its doc
comment).  Everything else in this section is translated from export.ts. -/

/-- Two-digit zero padding. -/
def pad2 (n : Nat) : String :=
  if n < 10 then "0" ++ toString n else toString n

/-- Three-digit zero padding. -/
def pad3 (n : Nat) : String :=
  if n < 10 then "00" ++ toString n
  else if n < 100 then "0" ++ toString n
  else toString n

/-- Modelled from the spec: the shared timestamp formatter `formatTimestamp` lives in
frontend/src/utils/format-time.ts, which is missing from the available sources.  The
spec fixes its output shape by example (1.5 s renders as `00:00:01.500`, 3.25 s as
`00:00:03.250`): zero-padded two-digit hours, minutes and seconds, a dot, and
zero-padded three-digit milliseconds.  The total milliseconds are the floor of
`seconds * 1000`, written on the numerator and denominator to stay inside integer
arithmetic. -/
def formatTimestamp (seconds : ℚ) : String :=
  let totalMs : Nat := ((seconds.num * 1000).fdiv (seconds.den : Int)).toNat
  pad2 (totalMs / 3600000) ++ ":" ++ pad2 (totalMs % 3600000 / 60000) ++ ":" ++
    pad2 (totalMs % 60000 / 1000) ++ "." ++ pad3 (totalMs % 1000)

/-- Replaces the first occurrence of a character (JS `replace` with a string pattern
replaces only the first match). -/
def replaceFirst (target repl : Char) : List Char → List Char
  | [] => []
  | c :: rest => if c = target then repl :: rest else c :: replaceFirst target repl rest

/-- SRT timestamp: `formatTimestamp(x).replace(".", ",")` (export.ts lines 9-10). -/
def srtTime (seconds : ℚ) : String :=
  String.mk (replaceFirst '.' ',' (formatTimestamp seconds).data)

/-- The bracketed speaker prefix ``[speaker] `` of the SRT renderers; the JS condition
`seg.speaker ?` is falsy for an absent or empty speaker. -/
def speakerBracket (sp : Option String) : String :=
  match sp with
  | some s => if s = "" then "" else "[" ++ s ++ "] "
  | none => ""

/-- The VTT voice tag `<v speaker>` (same truthiness rule). -/
def speakerVoice (sp : Option String) : String :=
  match sp with
  | some s => if s = "" then "" else "<v " ++ s ++ ">"
  | none => ""

/-- Embedding of `segmentsToSRT` (export.ts lines 6-15). -/
def segmentsToSRT (segments : List Segment) : String :=
  String.intercalate "\n" (segments.enum.map fun p =>
    toString (p.1 + 1) ++ "\n" ++ srtTime p.2.start ++ " --> " ++ srtTime p.2.stop ++
      "\n" ++ speakerBracket p.2.speaker ++ jsTrim p.2.text ++ "\n")

/-- Embedding of `segmentsToVTT` (export.ts lines 17-25). -/
def segmentsToVTT (segments : List Segment) : String :=
  "WEBVTT\n\n" ++ String.intercalate "\n" (segments.map fun seg =>
    formatTimestamp seg.start ++ " --> " ++ formatTimestamp seg.stop ++ "\n" ++
      speakerVoice seg.speaker ++ jsTrim seg.text ++ "\n")

/-- The loop body of `segmentsToTXT` (export.ts lines 27-39): a speaker header is
emitted when the (truthy) label differs from the last emitted one. -/
def txtGo (lastSpeaker : String) : List Segment → String
  | [] => ""
  | seg :: rest =>
    let label := seg.speaker.getD ""
    if label ≠ "" ∧ label ≠ lastSpeaker then
      "\n" ++ label ++ ":\n" ++ jsTrim seg.text ++ " " ++ txtGo label rest
    else
      jsTrim seg.text ++ " " ++ txtGo lastSpeaker rest

/-- Embedding of `segmentsToTXT` (export.ts lines 27-39). -/
def segmentsToTXT (segments : List Segment) : String :=
  jsTrim (txtGo "" segments)

/-- JSON string escaping as performed by `JSON.stringify` on the characters occurring
here (quote, backslash and the common control characters). -/
def jsonEscape (s : String) : String :=
  String.mk ((s.data.map fun c =>
    if c = '"' then ['\\', '"']
    else if c = '\\' then ['\\', '\\']
    else if c = '\n' then ['\\', 'n']
    else if c = '\t' then ['\\', 't']
    else if c = '\r' then ['\\', 'r']
    else [c]).flatten)

/-- A JSON string literal. -/
def jsonStr (s : String) : String :=
  "\"" ++ jsonEscape s ++ "\""

/-- Decimal rendering of the rational time values as `JSON.stringify` prints the
corresponding JS numbers (integer part, then fractional digits while a remainder is
left, capped well beyond the precision a JS float can carry). -/
def fracDigits : Nat → Nat → Nat → List Char
  | 0, _, _ => []
  | _ + 1, 0, _ => []
  | fuel + 1, r, d => Char.ofNat (48 + r * 10 / d) :: fracDigits fuel (r * 10 % d) d

/-- Decimal form of a rational number. -/
def ratRepr (q : ℚ) : String :=
  let sign := if q.num < 0 then "-" else ""
  let a := q.num.natAbs
  if a % q.den = 0 then sign ++ toString (a / q.den)
  else sign ++ toString (a / q.den) ++ "." ++ String.mk (fracDigits 30 (a % q.den) q.den)

/-- One `"key": value` line of a stringified object at the indentation used by
`JSON.stringify(..., null, 2)` for array elements. -/
def jsonField (kv : String × String) : String :=
  "    " ++ jsonStr kv.1 ++ ": " ++ kv.2

/-- `JSON.stringify(objects, null, 2)` for an array of flat objects given as ordered
field lists. -/
def jsonArray (objs : List (List (String × String))) : String :=
  if objs.isEmpty then "[]"
  else
    "[\n" ++
      String.intercalate ",\n" (objs.map fun fields =>
        "  \x7b\n" ++ String.intercalate ",\n" (fields.map jsonField) ++ "\n  \x7d") ++
    "\n]"

/-- Nested rendering of an `entity_counts` object inside an array element. -/
def entityCountsJson (ec : EntityCounts) : String :=
  match ec with
  | [] => "\x7b\x7d"
  | _ =>
    "\x7b\n" ++
      String.intercalate ",\n" (ec.map fun kv =>
        "      " ++ jsonStr kv.1 ++ ": " ++ toString kv.2) ++
    "\n    \x7d"

/-- The ordered fields of one segment in `segmentsToJSON` (export.ts lines 41-52);
`speaker: s.speaker ?? undefined` drops the field only when the speaker is absent. -/
def segmentJsonFields (s : Segment) : List (String × String) :=
  [("start", ratRepr s.start), ("end", ratRepr s.stop)] ++
    (match s.speaker with
     | some sp => [("speaker", jsonStr sp)]
     | none => []) ++
    [("text", jsonStr (jsTrim s.text))]

/-- Embedding of `segmentsToJSON` (export.ts lines 41-52). -/
def segmentsToJSON (segments : List Segment) : String :=
  jsonArray (segments.map segmentJsonFields)

/-- Embedding of `paragraphsToSRT` (export.ts lines 56-65). -/
def paragraphsToSRT (paragraphs : List Paragraph) : String :=
  String.intercalate "\n" (paragraphs.enum.map fun p =>
    toString (p.1 + 1) ++ "\n" ++ srtTime p.2.start ++ " --> " ++ srtTime p.2.stop ++
      "\n" ++ speakerBracket p.2.speaker ++ jsTrim p.2.text ++ "\n")

/-- Embedding of `paragraphsToVTT` (export.ts lines 67-75). -/
def paragraphsToVTT (paragraphs : List Paragraph) : String :=
  "WEBVTT\n\n" ++ String.intercalate "\n" (paragraphs.map fun p =>
    formatTimestamp p.start ++ " --> " ++ formatTimestamp p.stop ++ "\n" ++
      speakerVoice p.speaker ++ jsTrim p.text ++ "\n")

/-- Embedding of `paragraphsToTXT` (export.ts lines 77-84). -/
def paragraphsToTXT (paragraphs : List Paragraph) : String :=
  String.intercalate "\n\n" (paragraphs.map fun p =>
    (match p.speaker with
     | some s => if s = "" then "" else s ++ ":\n"
     | none => "") ++ jsTrim p.text)

/-- The ordered fields of one paragraph in `paragraphsToJSON` (export.ts lines 86-100):
`segment_count` always, then `entity_counts` when present (objects are always truthy)
and `sentiment` when truthy (present and nonempty). -/
def paragraphJsonFields (p : Paragraph) : List (String × String) :=
  [("start", ratRepr p.start), ("end", ratRepr p.stop)] ++
    (match p.speaker with
     | some sp => [("speaker", jsonStr sp)]
     | none => []) ++
    [("text", jsonStr (jsTrim p.text)), ("segment_count", toString p.segment_count)] ++
    (match p.entity_counts with
     | some ec => [("entity_counts", entityCountsJson ec)]
     | none => []) ++
    (match p.sentiment with
     | some s => if s = "" then [] else [("sentiment", jsonStr s)]
     | none => [])

/-- Embedding of `paragraphsToJSON` (export.ts lines 86-100). -/
def paragraphsToJSON (paragraphs : List Paragraph) : String :=
  jsonArray (paragraphs.map paragraphJsonFields)

/-- The export format union type (types.ts `ExportFormat`). -/
inductive Format where
  | srt
  | vtt
  | txt
  | json
deriving DecidableEq

/-- The view-mode union type (types.ts `ViewMode`: `"line"` is the segment view,
`"para"` the paragraph view). -/
inductive ViewMode where
  | line
  | para
deriving DecidableEq

/-- The pure core of `exportTranscript` (export.ts lines 104-161): the computed
`(content, mimeType, extension)` triple.  The paragraph renderers are used only when
the paragraph view is selected and the paragraph list is nonempty (line 115); the DOM
download of lines 163-169 is the delivery side effect outside the model. -/
def exportTranscript (segments : List Segment) (paragraphs : List Paragraph)
    (viewMode : ViewMode) (format : Format) : String × String × String :=
  if viewMode = ViewMode.para ∧ paragraphs.length > 0 then
    match format with
    | Format.srt => (paragraphsToSRT paragraphs, "text/srt", "srt")
    | Format.vtt => (paragraphsToVTT paragraphs, "text/vtt", "vtt")
    | Format.txt => (paragraphsToTXT paragraphs, "text/plain", "txt")
    | Format.json => (paragraphsToJSON paragraphs, "application/json", "json")
  else
    match format with
    | Format.srt => (segmentsToSRT segments, "text/srt", "srt")
    | Format.vtt => (segmentsToVTT segments, "text/vtt", "vtt")
    | Format.txt => (segmentsToTXT segments, "text/plain", "txt")
    | Format.json => (segmentsToJSON segments, "application/json", "json")

/-- The download filename of export.ts line 167: strip the final extension (the regex
`/\.[^.]+$/` matches a dot followed by at least one non-dot character at the end) and
append the serializer's extension. -/
def exportFileName (filename : String) (ext : String) : String :=
  let rev := filename.data.reverse
  let base := rev.takeWhile (fun c => c != '.')
  (match rev.drop base.length with
   | '.' :: restRev =>
     if base.isEmpty then filename else String.mk restRev.reverse
   | _ => filename) ++ "." ++ ext

/-! ### The inline highlighter (`renderText`, highlight-text.tsx lines 10-64)

The component splits the text on the redaction-marker pattern
`/(\[[A-Z][A-Z0-9 ]*\])/g`, renders each captured marker as one emphasized span, and —
when a search query is supplied — further splits only the plain chunks on the
case-insensitive escaped query.  `String.prototype.split` with a capturing group
returns the chunks and the separators interleaved (`chunk, marker, chunk, …, chunk`,
with empty chunks where two markers touch or a marker touches an end); `redactionRun`
produces that interleaving directly, flagging the marker parts.  The classification the
source performs with `REDACTION_PATTERN.test` agrees with these flags: a chunk between
matches of the (context-free) pattern cannot itself contain a match, so the `test`
calls, whose `lastIndex` state always returns to zero on those chunks, classify exactly
the captured separators as markers. -/

/-- The character class `[A-Z0-9 ]` of the redaction pattern. -/
def markerBody (d : Char) : Bool :=
  d.isUpper || d.isDigit || d == ' '

/-- Length of the redaction-marker match starting at the head of the text, if any: an
opening bracket, an uppercase letter, a greedy run of uppercase letters, digits and
spaces, and a closing bracket.  The character class excludes `]`, so the greedy run
needs no backtracking: the match exists iff the first character after the run is `]`. -/
def markerLen (cs : List Char) : Option Nat :=
  match cs with
  | c0 :: c1 :: rest =>
    if c0 = '[' ∧ c1.isUpper then
      let run := rest.takeWhile markerBody
      match (rest.drop run.length).head? with
      | some d => if d = ']' then some (run.length + 3) else none
      | none => none
    else none
  | _ => none

/-- The split-with-classification scan of the redaction pattern: returns the parts of
`text.split(REDACTION_PATTERN)` in order, marker parts flagged `true`.  `acc` holds the
pending plain chunk in reverse; the `Nat` state counts marker characters still to be
consumed silently after a marker was emitted. -/
def redactionRun (acc : List Char) : Nat → List Char → List (List Char × Bool)
  | _, [] => [(acc.reverse, false)]
  | skip + 1, _ :: rest => redactionRun acc skip rest
  | 0, c :: rest =>
    match markerLen (c :: rest) with
    | some k =>
      (acc.reverse, false) :: ((c :: rest).take k, true) :: redactionRun [] (k - 1) rest
    | none => redactionRun (c :: acc) 0 rest

/-- The classified parts of `text.split(REDACTION_PATTERN)`. -/
def redactionScan (text : String) : List (List Char × Bool) :=
  redactionRun [] 0 text.data

/-- The style tag attached to each rendered span. -/
inductive Tag where
  | plain
  | redaction
  | highlight
deriving DecidableEq

/-- The split of one plain chunk on the case-insensitive escaped search query
(`part.split(searchRegex)` of line 47 with the classification of line 51): chunks and
matches interleaved, matches tagged `highlight`. -/
def searchRun (q : List Char) (acc : List Char) : Nat → List Char → List (List Char × Tag)
  | _, [] => [(acc.reverse, Tag.plain)]
  | skip + 1, _ :: rest => searchRun q acc skip rest
  | 0, c :: rest =>
    if !q.isEmpty && startsWithCI true q (c :: rest) then
      (acc.reverse, Tag.plain) :: ((c :: rest).take q.length, Tag.highlight) ::
        searchRun q [] (q.length - 1) rest
    else
      searchRun q (c :: acc) 0 rest

/-- The rendering of the split parts when no search query applies (lines 16-30):
markers emphasized, everything else plain. -/
def renderPlain (text : String) : List (String × Tag) :=
  (redactionScan text).map fun p =>
    (String.mk p.1, if p.2 then Tag.redaction else Tag.plain)

/-- The rendering with search highlighting (lines 36-62): marker parts stay single
emphasized spans, plain parts are further split on the query. -/
def renderSearch (q : String) (text : String) : List (String × Tag) :=
  ((redactionScan text).map fun p =>
    if p.2 then [(String.mk p.1, Tag.redaction)]
    else (searchRun q.data [] 0 p.1).map fun s => (String.mk s.1, s.2)).flatten

/-- Embedding of `renderText` (highlight-text.tsx lines 10-64), flattening the JSX
span tree into the ordered list of (text, style) spans it renders.  The JS guard
`if (!searchQuery)` skips search highlighting for an absent or empty query. -/
def renderText (text : String) (searchQuery : Option String) : List (String × Tag) :=
  match searchQuery with
  | none => renderPlain text
  | some q => if q = "" then renderPlain text else renderSearch q text

/-! ## Lemmas about the paragraph grouper -/

theorem foldl_extendCur_speaker (tl : List Segment) (c : Current) :
    (tl.foldl extendCur c).speaker = c.speaker := by
  induction tl generalizing c with
  | nil => rfl
  | cons a tl ih => simpa [extendCur] using ih (extendCur c a)

theorem foldl_extendCur_start (tl : List Segment) (c : Current) :
    (tl.foldl extendCur c).start = c.start := by
  induction tl generalizing c with
  | nil => rfl
  | cons a tl ih => simpa [extendCur] using ih (extendCur c a)

theorem foldl_extendCur_count (tl : List Segment) (c : Current) :
    (tl.foldl extendCur c).segmentCount = c.segmentCount + tl.length := by
  induction tl generalizing c with
  | nil => rfl
  | cons a tl ih =>
    rw [List.foldl_cons, ih (extendCur c a)]
    simp only [extendCur, List.length_cons]
    omega

theorem curOf_speaker (h : Segment) (tl : List Segment) :
    (curOf h tl).speaker = h.speaker := by
  simpa [curOf, initCur] using foldl_extendCur_speaker tl (initCur h)

theorem curOf_concat (h : Segment) (tl : List Segment) (seg : Segment) :
    curOf h (tl ++ [seg]) = extendCur (curOf h tl) seg := by
  simp [curOf, List.foldl_concat]

theorem mkPara_segment_count (h : Segment) (tl : List Segment) :
    (mkPara h tl).segment_count = tl.length + 1 := by
  simp only [mkPara, closePara, curOf]
  rw [foldl_extendCur_count]
  simp [initCur]
  omega

theorem mkPara_start (h : Segment) (tl : List Segment) :
    (mkPara h tl).start = h.start := by
  simp only [mkPara, closePara, curOf]
  rw [foldl_extendCur_start]
  rfl

theorem foldl_extendCur_stop_getLastD (tl : List Segment) (c : Current) :
    (tl.foldl extendCur c).stop = ((tl.map Segment.stop).getLastD c.stop) := by
  induction tl generalizing c with
  | nil => rfl
  | cons a tl ih =>
    rw [List.foldl_cons, ih (extendCur c a), List.map_cons, List.getLastD_cons]
    simp [extendCur]

theorem getLastD_map_stop (tl : List Segment) (h : Segment) :
    (tl.map Segment.stop).getLastD h.stop = (tl.getLastD h).stop := by
  induction tl generalizing h with
  | nil => rfl
  | cons b tl ih => rw [List.map_cons, List.getLastD_cons, List.getLastD_cons, ih b]

theorem mkPara_stop (h : Segment) (tl : List Segment) :
    (mkPara h tl).stop = (tl.getLastD h).stop := by
  simp only [mkPara, closePara, curOf]
  rw [foldl_extendCur_stop_getLastD]
  have hinit : (initCur h).stop = h.stop := rfl
  rw [hinit, getLastD_map_stop]

theorem paraGo_eq_blocksGo (rest : List Segment) (t : ℚ) (h : Segment) (acc : List Segment) :
    paraGo t (curOf h acc.reverse) rest =
      (blocksGo t h acc rest).map fun b => mkPara b.1 b.2 := by
  induction rest generalizing h acc with
  | nil => simp [paraGo, blocksGo, mkPara]
  | cons seg rest ih =>
    simp only [paraGo, blocksGo]
    by_cases hb : paraBreak (curOf h acc.reverse) seg t
    · rw [if_pos hb, if_pos hb, List.map_cons, ← ih seg []]
      rfl
    · simp only [if_neg hb]
      have : extendCur (curOf h acc.reverse) seg = curOf h (seg :: acc).reverse := by
        rw [List.reverse_cons, curOf_concat]
      rw [this]
      exact ih h (seg :: acc)

theorem detect_eq_blocks (S : List Segment) (t : ℚ) :
    detectParagraphsClient S t = (detectBlocks S t).map fun b => mkPara b.1 b.2 := by
  cases S with
  | nil => rfl
  | cons s rest =>
    have := paraGo_eq_blocksGo rest t s []
    simpa [detectParagraphsClient, detectBlocks, curOf] using this

theorem blocksGo_flatten (rest : List Segment) (t : ℚ) (h : Segment) (acc : List Segment) :
    ((blocksGo t h acc rest).map fun b => b.1 :: b.2).flatten = h :: (acc.reverse ++ rest) := by
  induction rest generalizing h acc with
  | nil => simp [blocksGo]
  | cons seg rest ih =>
    simp only [blocksGo]
    by_cases hb : paraBreak (curOf h acc.reverse) seg t
    · simp [if_pos hb, ih seg []]
    · simp only [if_neg hb, ih h (seg :: acc), List.reverse_cons]
      simp

theorem detectBlocks_flatten (S : List Segment) (t : ℚ) :
    ((detectBlocks S t).map fun b => b.1 :: b.2).flatten = S := by
  cases S with
  | nil => rfl
  | cons s rest => simpa [detectBlocks] using blocksGo_flatten rest t s []

theorem mkPara_counts_flatten (bs : List (Segment × List Segment)) :
    ((bs.map fun b => mkPara b.1 b.2).map Paragraph.segment_count).sum =
      ((bs.map fun b => b.1 :: b.2).flatten).length := by
  induction bs with
  | nil => rfl
  | cons b bs ih =>
    simp only [List.map_cons, List.flatten_cons, List.sum_cons, List.length_append, ih,
      mkPara_segment_count, List.length_cons]

theorem blocksGo_speaker_eq (rest : List Segment) (t : ℚ) (h : Segment) (acc : List Segment)
    (hacc : ∀ x ∈ acc, x.speaker = h.speaker) :
    ∀ b ∈ blocksGo t h acc rest, ∀ x ∈ b.2, x.speaker = b.1.speaker := by
  induction rest generalizing h acc with
  | nil =>
    intro b hb x hx
    simp only [blocksGo, List.mem_singleton] at hb
    subst hb
    exact hacc x (List.mem_reverse.mp hx)
  | cons seg rest ih =>
    intro b hb x hx
    simp only [blocksGo] at hb
    by_cases hbreak : paraBreak (curOf h acc.reverse) seg t
    · rw [if_pos hbreak] at hb
      rcases List.mem_cons.mp hb with hb | hb
      · subst hb
        exact hacc x (List.mem_reverse.mp hx)
      · exact ih seg [] (by simp) b hb x hx
    · rw [if_neg hbreak] at hb
      refine ih h (seg :: acc) ?_ b hb x hx
      intro y hy
      rcases List.mem_cons.mp hy with hy | hy
      · rw [hy]
        have hsp : seg.speaker = (curOf h acc.reverse).speaker := by
          by_contra hne
          exact hbreak (Or.inl hne)
        rw [curOf_speaker] at hsp
        exact hsp
      · exact hacc y hy

/-! ## Sample data used by the concrete witnesses -/

/-- Sample segment of the spec's format round-trip test (`start` 1.5 s, `end` 3.25 s). -/
def sampleSegment : Segment :=
  { start := mkRat 3 2, stop := mkRat 13 4, text := "hello world", speaker := some "SPEAKER_00" }

/-- Sample segment: speaker `S0`, 0 s to 1 s. -/
def segA : Segment :=
  { start := mkRat 0 1, stop := mkRat 1 1, text := "a", speaker := some "S0" }

/-- Sample segment: speaker `S0`, starting exactly where `segA` ends (zero gap). -/
def segB : Segment :=
  { start := mkRat 1 1, stop := mkRat 2 1, text := "b", speaker := some "S0" }

/-- Sample segment: speaker `S1`, starting exactly where `segA` ends (zero gap). -/
def segC : Segment :=
  { start := mkRat 1 1, stop := mkRat 2 1, text := "c", speaker := some "S1" }

/-- Sample literal filler rule with default (empty) flags. -/
def likeRule : TextRule :=
  { name := "remove filler", find := "like", replace := "", isRegex := false,
    flags := "", category := "filler", enabled := true }

/-- Sample literal rule removing the word `um`. -/
def umRule : TextRule :=
  { name := "remove um", find := "um", replace := "", isRegex := false,
    flags := "", category := "filler", enabled := true }

/-- Sample malformed `isRegex` rule (an unclosed group throws in `new RegExp`; under
`noRegex` every engine pattern is malformed). -/
def badParen : TextRule :=
  { name := "broken", find := "(", replace := "x", isRegex := true,
    flags := "", category := "replace", enabled := true }

/-! ## C1 and C2 -/

/-- C1: for every segment list `S` and every silence threshold `t`, the paragraphs of
`detectParagraphsClient S t` are exactly the images of a partition of `S` into
contiguous nonempty blocks, taken in the original order (`detectBlocks` names that
partition): the blocks flatten back to `S` (each input segment contributes to exactly
one output paragraph, in time order, covering `S` contiguously), the `segment_count`
fields sum to the length of `S`, and each paragraph spans its block (count = block
size, start = first block segment's start, end = last block segment's end). -/
theorem detectParagraphs_partition (S : List Segment) (t : ℚ) :
    detectParagraphsClient S t = ((detectBlocks S t).map fun b => mkPara b.1 b.2) ∧
    ((detectBlocks S t).map fun b => b.1 :: b.2).flatten = S ∧
    ((detectParagraphsClient S t).map Paragraph.segment_count).sum = S.length ∧
    ∀ b ∈ detectBlocks S t,
      (mkPara b.1 b.2).segment_count = b.2.length + 1 ∧
      (mkPara b.1 b.2).start = b.1.start ∧
      (mkPara b.1 b.2).stop = (b.2.getLastD b.1).stop := by
  refine ⟨detect_eq_blocks S t, detectBlocks_flatten S t, ?_, ?_⟩
  · rw [detect_eq_blocks S t, mkPara_counts_flatten, detectBlocks_flatten]
  · intro b _
    exact ⟨mkPara_segment_count b.1 b.2, mkPara_start b.1 b.2, mkPara_stop b.1 b.2⟩

/-- Witness for C1 at a concrete two-speaker input. -/
theorem detectParagraphs_partition_witness :
    ((detectBlocks [segA, segC] (mkRat 4 5)).map fun b => b.1 :: b.2).flatten =
      [segA, segC] ∧
    (mkPara segA []).start = segA.start := by
  refine ⟨(detectParagraphs_partition [segA, segC] (mkRat 4 5)).2.1, ?_⟩
  have h := (detectParagraphs_partition [segA, segC] (mkRat 4 5)).2.2.2 (segA, []) (by decide)
  exact h.2.1

/-- C2: a speaker change always forces a paragraph break regardless of the silence gap
(first conjunct: inside any block of the partition every merged segment has the block
head's speaker, so two adjacent segments with different speakers never share a
paragraph; second conjunct: the break condition holds whenever the speakers differ),
and a non-positive (zero or negative) gap never triggers a break by itself under a
positive threshold (third conjunct). -/
theorem speakerChange_always_breaks (S : List Segment) (t : ℚ) (ht : 0 < t) :
    (∀ b ∈ detectBlocks S t, ∀ x ∈ b.2, x.speaker = b.1.speaker) ∧
    (∀ cur seg, seg.speaker ≠ cur.speaker → paraBreak cur seg t) ∧
    (∀ cur seg, seg.speaker = cur.speaker → seg.start - cur.stop ≤ 0 →
      ¬ paraBreak cur seg t) := by
  refine ⟨?_, ?_, ?_⟩
  · intro b hb x hx
    cases S with
    | nil => simp [detectBlocks] at hb
    | cons s rest => exact blocksGo_speaker_eq rest t s [] (by simp) b hb x hx
  · intro cur seg hne
    exact Or.inl hne
  · intro cur seg hsp hgap hbr
    have hbr2 : seg.speaker ≠ cur.speaker ∨ seg.start - cur.stop > t := hbr
    rcases hbr2 with hne | hgt
    · exact hne hsp
    · exact absurd hgt (not_lt.mpr (hgap.trans ht.le))

/-- Witness for C2: with threshold 0.8, a zero-gap speaker change breaks and a zero-gap
same-speaker pair does not. -/
theorem speakerChange_always_breaks_witness :
    paraBreak (initCur segA) segC (mkRat 4 5) ∧
    ¬ paraBreak (initCur segA) segB (mkRat 4 5) := by
  constructor
  · exact (speakerChange_always_breaks [] (mkRat 4 5) (by decide)).2.1
      (initCur segA) segC (by decide)
  · refine (speakerChange_always_breaks [] (mkRat 4 5) (by decide)).2.2
      (initCur segA) segB (by decide) ?_
    show segB.start - (initCur segA).stop ≤ 0
    have heq : segB.start = (initCur segA).stop := by decide
    rw [heq]
    simp

/-! ## C3: a failed rule is skipped, the remaining rules still run -/

theorem applyRuleStep_of_compile_none (re : RegexEngine) (x : String) (bad : TextRule)
    (h : compileRule re bad = none) : applyRuleStep re x bad = x := by
  unfold applyRuleStep
  split
  · rfl
  · rw [h]

/-- C3: `applyTextRules` is total and a rule whose compilation (or application) throws
is skipped in place: for every engine, every text and every rule list split as
`pre ++ bad :: post` with `bad` failing to compile, the result is exactly the result of
running the same list without `bad` — every remaining rule is still applied to the text
produced so far and no error reaches the caller. -/
theorem applyTextRules_skips_failed_rule (re : RegexEngine) (text : String)
    (pre post : List TextRule) (bad : TextRule) (h : compileRule re bad = none) :
    applyTextRules re text (pre ++ bad :: post) = applyTextRules re text (pre ++ post) := by
  unfold applyTextRules rulesPass
  rw [List.foldl_append, List.foldl_append, List.foldl_cons,
    applyRuleStep_of_compile_none re _ bad h]

/-- Witness for C3: a malformed `isRegex` rule between two literal rules changes
nothing; the surrounding rules still fire. -/
theorem applyTextRules_skips_failed_rule_witness :
    compileRule noRegex badParen = none ∧
    applyTextRules noRegex "um like stop" [umRule, badParen, likeRule] =
      applyTextRules noRegex "um like stop" [umRule, likeRule] ∧
    applyTextRules noRegex "um like stop" [umRule, badParen, likeRule] = "stop" := by
  refine ⟨rfl, ?_, ?_⟩
  · exact applyTextRules_skips_failed_rule noRegex "um like stop" [umRule] [likeRule]
      badParen rfl
  · have h2 := applyTextRules_skips_failed_rule noRegex "um like stop" [umRule] [likeRule]
      badParen rfl
    have h3 : applyTextRules noRegex "um like stop" [umRule, likeRule] = "stop" := by decide
    calc applyTextRules noRegex "um like stop" [umRule, badParen, likeRule]
        = applyTextRules noRegex "um like stop" ([umRule] ++ badParen :: [likeRule]) := rfl
      _ = applyTextRules noRegex "um like stop" ([umRule] ++ [likeRule]) := h2
      _ = "stop" := h3

/-! ## C6: serializer output shapes on the spec's sample segment -/

/-- C6: on the single segment (start 1.5 s, end 3.25 s, text `hello world`, speaker
`SPEAKER_00`) the SRT serializer produces exactly the stated block and the VTT output
begins with (here: equals) the stated header and cue; the shared timestamp formatter
emits two-digit zero-padded hours, minutes and seconds and three-digit milliseconds,
and the SRT timestamp substitutes a comma for the dot of the fractional separator
only.  `formatTimestamp` is modelled from the spec because
frontend/src/utils/format-time.ts is not among the available sources. -/
theorem export_sample_format_shapes :
    segmentsToSRT [sampleSegment] =
      "1\n00:00:01,500 --> 00:00:03,250\n[SPEAKER_00] hello world\n" ∧
    segmentsToVTT [sampleSegment] =
      "WEBVTT\n\n00:00:01.500 --> 00:00:03.250\n<v SPEAKER_00>hello world\n" ∧
    List.isPrefixOf
      "WEBVTT\n\n00:00:01.500 --> 00:00:03.250\n<v SPEAKER_00>hello world\n".data
      (segmentsToVTT [sampleSegment]).data = true ∧
    formatTimestamp (mkRat 3 2) = "00:00:01.500" ∧
    srtTime (mkRat 3 2) = "00:00:01,500" ∧
    srtTime (mkRat 13 4) = "00:00:03,250" := by
  decide

/-! ## C9: paragraph view with no paragraphs falls back to segment view -/

/-- C9: for every segment list, every format and every filename, exporting in paragraph
view while the paragraph list is empty yields exactly the content, MIME type and
extension of the segment (`"line"`) view for the same format, and hence also the same
download filename. -/
theorem export_para_empty_fallback (segments : List Segment) (format : Format)
    (filename : String) :
    exportTranscript segments [] ViewMode.para format =
      exportTranscript segments [] ViewMode.line format ∧
    exportFileName filename (exportTranscript segments [] ViewMode.para format).2.2 =
      exportFileName filename (exportTranscript segments [] ViewMode.line format).2.2 := by
  have h : exportTranscript segments [] ViewMode.para format =
      exportTranscript segments [] ViewMode.line format := by
    unfold exportTranscript
    rw [if_neg (by decide), if_neg (by decide)]
  exact ⟨h, by rw [h]⟩

/-! ## C4: literal rules are word-bounded -/

/-- C4: a non-regex rule is compiled to the word-bounded literal matcher (the escaped
`find` between `\b` anchors), and that matcher never fires on an occurrence lying
strictly inside a larger word: whenever `wbFires` holds, the match is not preceded by a
word character that continues a word into the match, and the character after the match
does not continue the match into a longer word (first conjunct, stated for every
pattern, case rule and position).  Concretely, the rule `{find := "like", isRegex :=
false}` leaves `"I liked it"` unchanged and rewrites `"I like it"` (with an empty
replacement, up to the final cleanup pass) to `"I it"`. -/
theorem literal_rules_word_bounded :
    (∀ ci find prevW text, wbFires ci find prevW text = true →
      (prevW && headIsWord text) = false ∧
      (lastIsWord (text.take find.length) && headIsWord (text.drop find.length)) = false) ∧
    applyTextRules noRegex "I liked it" [likeRule] = "I liked it" ∧
    applyTextRules noRegex "I like it" [likeRule] = "I it" := by
  refine ⟨?_, by decide, by decide⟩
  intro ci find prevW text hf
  unfold wbFires at hf
  simp only [Bool.and_eq_true] at hf
  have key : ∀ a b : Bool, (a != b) = true → (a && b) = false := by decide
  exact ⟨key _ _ hf.1.2, key _ _ hf.2⟩

/-- Witness for C4: the matcher fires on the standalone word `like` of `"like it"`, and
there both boundary conclusions hold. -/
theorem literal_rules_word_bounded_witness :
    (false && headIsWord "like it".data) = false ∧
    (lastIsWord ("like it".data.take "like".data.length) &&
      headIsWord ("like it".data.drop "like".data.length)) = false := by
  exact literal_rules_word_bounded.1 true "like".data false "like it".data (by decide)

/-! ## C10: empty flags default to `"gi"` -/

/-- C10: when a rule's `flags` string is empty the effective flags default to `"gi"`,
so a flagless rule matches globally and case-insensitively (the flagless literal rule
`like` rewrites `"Like this"`); when `flags` is nonempty the caller's modifiers are
used, with `"g"` prepended iff absent. -/
theorem flags_default_case_insensitive :
    effectiveFlags "" = "gi" ∧
    (effectiveFlags "").data.contains 'i' = true ∧
    (∀ f : String, f ≠ "" →
      effectiveFlags f = if f.data.contains 'g' then f else "g" ++ f) ∧
    applyTextRules noRegex "Like this" [likeRule] = "this" := by
  refine ⟨rfl, by decide, ?_, by decide⟩
  intro f hf
  simp [effectiveFlags, hf]

/-- Witness for C10: a caller flag string `"i"` keeps the modifier and gains `"g"`. -/
theorem flags_default_case_insensitive_witness :
    effectiveFlags "i" = if "i".data.contains 'g' then "i" else "g" ++ "i" := by
  exact flags_default_case_insensitive.2.2.1 "i" (by decide)

/-! ## C5: idempotence of the cleanup pass

The chain of lemmas below shows exactly which parts of the cleanup are no-ops on
already-cleaned text: the space collapse and the trim always are, while the comma
collapse is only when no `,\s*,` match is left — which a single pass does not
guarantee (`",,,"` cleans to `",,"`, which cleans again to `","`). -/

/-- Two adjacent characters are not both spaces. -/
def spaceFree (a b : Char) : Prop := ¬(a = ' ' ∧ b = ' ')

theorem squeeze_true_head (cs : List Char) : (squeeze true cs).head? ≠ some ' ' := by
  induction cs with
  | nil => simp [squeeze]
  | cons c rest ih =>
    by_cases hc : c = ' '
    · simpa [squeeze, hc] using ih
    · simp [squeeze, hc]

theorem chain'_squeeze (cs : List Char) (b : Bool) :
    List.Chain' spaceFree (squeeze b cs) := by
  induction cs generalizing b with
  | nil =>
    show List.Chain' spaceFree []
    simp
  | cons c rest ih =>
    by_cases hc : c = ' '
    · cases b with
      | true =>
        have hstep : squeeze true (c :: rest) = squeeze true rest := by simp [squeeze, hc]
        rw [hstep]
        exact ih true
      | false =>
        have hstep : squeeze false (c :: rest) = ' ' :: squeeze true rest := by
          simp [squeeze, hc]
        rw [hstep, List.chain'_cons']
        refine ⟨?_, ih true⟩
        intro y hy hcon
        rw [hcon.2] at hy
        exact squeeze_true_head rest hy
    · have hstep : squeeze b (c :: rest) = c :: squeeze false rest := by
        cases b <;> simp [squeeze, hc]
      rw [hstep, List.chain'_cons']
      refine ⟨?_, ih false⟩
      intro y _ hcon
      exact hc hcon.1

theorem squeeze_eq_self (cs : List Char) :
    List.Chain' spaceFree cs →
      squeeze false cs = cs ∧ (cs.head? ≠ some ' ' → squeeze true cs = cs) := by
  induction cs with
  | nil => exact fun _ => ⟨rfl, fun _ => rfl⟩
  | cons c rest ih =>
    intro hch
    rw [List.chain'_cons'] at hch
    obtain ⟨hpair, hrest⟩ := hch
    obtain ⟨ih1, ih2⟩ := ih hrest
    by_cases hc : c = ' '
    · subst hc
      have hresthead : rest.head? ≠ some ' ' := by
        intro hh
        exact (hpair ' ' hh) ⟨rfl, rfl⟩
      constructor
      · have hstep : squeeze false (' ' :: rest) = ' ' :: squeeze true rest := by
          simp [squeeze]
        rw [hstep, ih2 hresthead]
      · intro hhead
        exact absurd rfl hhead
    · constructor
      · have hstep : squeeze false (c :: rest) = c :: squeeze false rest := by
          simp [squeeze, hc]
        rw [hstep, ih1]
      · intro _
        have hstep : squeeze true (c :: rest) = c :: squeeze false rest := by
          simp [squeeze, hc]
        rw [hstep, ih1]

theorem commaFixRun_zero_head (cs : List Char) :
    (commaFixRun 0 cs).head? = cs.head? := by
  cases cs with
  | nil => rfl
  | cons c rest =>
    by_cases hc : c = ','
    · subst hc
      cases hm : commaMatchTail rest with
      | some n => simp [commaFixRun, hm]
      | none => simp [commaFixRun, hm]
    · simp [commaFixRun, hc]

theorem chain'_commaFixRun (cs : List Char) : ∀ skip : Nat, List.Chain' spaceFree cs →
    List.Chain' spaceFree (commaFixRun skip cs) := by
  induction cs with
  | nil =>
    intro skip _
    cases skip <;> simp [commaFixRun]
  | cons c rest ih =>
    intro skip hch
    rw [List.chain'_cons'] at hch
    obtain ⟨hpair, hrest⟩ := hch
    cases skip with
    | succ n => exact ih n hrest
    | zero =>
      by_cases hc : c = ','
      · subst hc
        cases hm : commaMatchTail rest with
        | some n =>
          have hstep : commaFixRun 0 (',' :: rest) = ',' :: commaFixRun (n + 1) rest := by
            simp [commaFixRun, hm]
          rw [hstep, List.chain'_cons']
          refine ⟨?_, ih (n + 1) hrest⟩
          intro y _ hcon
          exact absurd hcon.1 (by decide)
        | none =>
          have hstep : commaFixRun 0 (',' :: rest) = ',' :: commaFixRun 0 rest := by
            simp [commaFixRun, hm]
          rw [hstep, List.chain'_cons']
          refine ⟨?_, ih 0 hrest⟩
          intro y _ hcon
          exact absurd hcon.1 (by decide)
      · have hstep : commaFixRun 0 (c :: rest) = c :: commaFixRun 0 rest := by
          simp [commaFixRun, hc]
        rw [hstep, List.chain'_cons']
        refine ⟨?_, ih 0 hrest⟩
        intro y hy hcon
        rw [commaFixRun_zero_head] at hy
        exact hpair y hy hcon

theorem commaFixRun_eq_self (cs : List Char) : hasCommaPair cs = false →
    commaFixRun 0 cs = cs := by
  induction cs with
  | nil => exact fun _ => rfl
  | cons c rest ih =>
    intro h
    by_cases hc : c = ','
    · subst hc
      cases hm : commaMatchTail rest with
      | some n => simp [hasCommaPair, hm] at h
      | none =>
        have hrest : hasCommaPair rest = false := by
          simpa [hasCommaPair, hm] using h
        have hstep : commaFixRun 0 (',' :: rest) = ',' :: commaFixRun 0 rest := by
          simp [commaFixRun, hm]
        rw [hstep, ih hrest]
    · have hrest : hasCommaPair rest = false := by
        simpa [hasCommaPair, hc] using h
      have hstep : commaFixRun 0 (c :: rest) = c :: commaFixRun 0 rest := by
        simp [commaFixRun, hc]
      rw [hstep, ih hrest]

theorem dropWhile_head_not (p : Char → Bool) (l : List Char) (c : Char)
    (h : (l.dropWhile p).head? = some c) : p c = false := by
  induction l with
  | nil => simp at h
  | cons a l ih =>
    rw [List.dropWhile_cons] at h
    split at h
    · exact ih h
    · next hpa =>
      have hac : a = c := by simpa using h
      subst hac
      simpa using hpa

theorem head?_of_front {t m : List Char} (h : t <+: m) {c : Char}
    (hc : t.head? = some c) : m.head? = some c := by
  obtain ⟨s, rfl⟩ := h
  rw [List.head?_append, hc]
  rfl

theorem trimBack_front (m : List Char) :
    (m.reverse.dropWhile jsWs).reverse <+: m := by
  have h1 : m.reverse.dropWhile jsWs <:+ m.reverse := List.dropWhile_suffix _
  have h2 := List.reverse_prefix.mpr h1
  simpa using h2

theorem jsTrimList_head_not_ws (l : List Char) (c : Char)
    (h : (jsTrimList l).head? = some c) : jsWs c = false := by
  unfold jsTrimList at h
  have h2 : (l.dropWhile jsWs).head? = some c :=
    head?_of_front (trimBack_front (l.dropWhile jsWs)) h
  exact dropWhile_head_not jsWs l c h2

theorem jsTrimList_getLast_not_ws (l : List Char) (c : Char)
    (h : (jsTrimList l).getLast? = some c) : jsWs c = false := by
  unfold jsTrimList at h
  rw [List.getLast?_reverse] at h
  exact dropWhile_head_not jsWs _ c h

theorem jsTrimList_eq_self (l : List Char)
    (hh : ∀ c, l.head? = some c → jsWs c = false)
    (hl : ∀ c, l.getLast? = some c → jsWs c = false) : jsTrimList l = l := by
  have h1 : l.dropWhile jsWs = l := by
    cases l with
    | nil => rfl
    | cons a l =>
      rw [List.dropWhile_cons, if_neg]
      simp [hh a rfl]
  have h2 : l.reverse.dropWhile jsWs = l.reverse := by
    cases hrv : l.reverse with
    | nil => rfl
    | cons b lr =>
      have hb : jsWs b = false := by
        apply hl
        rw [← List.head?_reverse, hrv]
        rfl
      rw [List.dropWhile_cons, if_neg]
      simp [hb]
  unfold jsTrimList
  rw [h1, h2, List.reverse_reverse]

theorem chain'_dropWhile {R : Char → Char → Prop} (p : Char → Bool) (l : List Char)
    (h : List.Chain' R l) : List.Chain' R (l.dropWhile p) := by
  obtain ⟨pre, hpre⟩ := List.dropWhile_suffix p (l := l)
  rw [← hpre] at h
  exact h.right_of_append

theorem chain'_spaceFree_reverse (l : List Char) (h : List.Chain' spaceFree l) :
    List.Chain' spaceFree l.reverse := by
  rw [List.chain'_reverse]
  exact h.imp fun a b hab hcon => hab ⟨hcon.2, hcon.1⟩

theorem chain'_jsTrimList (l : List Char) (h : List.Chain' spaceFree l) :
    List.Chain' spaceFree (jsTrimList l) := by
  unfold jsTrimList
  exact chain'_spaceFree_reverse _
    (chain'_dropWhile _ _ (chain'_spaceFree_reverse _ (chain'_dropWhile _ _ h)))

theorem cleanup_eq_self_of_clean (w : String)
    (hcomma : hasCommaPair (cleanup w).data = false) :
    cleanup (cleanup w) = cleanup w := by
  have hdata : (cleanup w).data = jsTrimList (commaFixRun 0 (squeeze false w.data)) := rfl
  have hch : List.Chain' spaceFree (cleanup w).data := by
    rw [hdata]
    exact chain'_jsTrimList _ (chain'_commaFixRun _ 0 (chain'_squeeze _ false))
  have hsq : squeeze false (cleanup w).data = (cleanup w).data :=
    (squeeze_eq_self _ hch).1
  have hcf : commaFixRun 0 (cleanup w).data = (cleanup w).data :=
    commaFixRun_eq_self _ hcomma
  have htrim : jsTrimList (cleanup w).data = (cleanup w).data := by
    apply jsTrimList_eq_self
    · intro c hc
      rw [hdata] at hc
      exact jsTrimList_head_not_ws _ c hc
    · intro c hc
      rw [hdata] at hc
      exact jsTrimList_getLast_not_ws _ c hc
  show String.mk (jsTrimList (commaFixRun 0 (squeeze false (cleanup w).data))) = cleanup w
  rw [hsq, hcf, htrim]

/-- Counterexample to C5 as stated: with the empty rule list (which trivially produces
no further matches), `applyTextRules` on `",,,"` yields `",,"` — the single left-to-right
pass of `replace(/,\s*,/g, ",")` consumes both commas of a match and resumes after it —
and a second application yields `","`, so the cleanup pass is not a no-op on text it
has already cleaned. -/
theorem cleanup_not_idempotent_counterexample :
    rulesPass noRegex (applyTextRules noRegex ",,," []) [] =
      applyTextRules noRegex ",,," [] ∧
    applyTextRules noRegex ",,," [] = ",," ∧
    applyTextRules noRegex (applyTextRules noRegex ",,," []) [] = "," ∧
    applyTextRules noRegex (applyTextRules noRegex ",,," []) [] ≠
      applyTextRules noRegex ",,," [] := by
  exact ⟨rfl, by decide, by decide, by decide⟩

/-- C5 as amended: `applyTextRules` is idempotent once the rules produce no further
matches **and** the cleaned text contains no remaining comma–whitespace–comma
occurrence (the part the counterexample forces: runs of three or more commas need more
than one comma-collapse pass).  Under these hypotheses the second run's rule pass is
the identity and the cleanup pass — space collapse, comma collapse, trim — is a no-op
on the already-cleaned text. -/
theorem applyTextRules_idempotent_amended (re : RegexEngine) (t : String)
    (R : List TextRule)
    (hrules : rulesPass re (applyTextRules re t R) R = applyTextRules re t R)
    (hcomma : hasCommaPair (applyTextRules re t R).data = false) :
    applyTextRules re (applyTextRules re t R) R = applyTextRules re t R := by
  show cleanup (rulesPass re (applyTextRules re t R) R) = applyTextRules re t R
  rw [hrules]
  exact cleanup_eq_self_of_clean (rulesPass re t R) hcomma

/-- Witness for the amended C5 at a concrete cleaned text. -/
theorem applyTextRules_idempotent_amended_witness :
    applyTextRules noRegex (applyTextRules noRegex "a ,, b" []) [] =
      applyTextRules noRegex "a ,, b" [] := by
  exact applyTextRules_idempotent_amended noRegex "a ,, b" [] rfl (by decide)

/-! ## C7: redaction markers render as single spans -/

theorem searchRun_tags (q : List Char) (cs : List Char) : ∀ acc skip,
    ∀ s ∈ searchRun q acc skip cs, s.2 ≠ Tag.redaction := by
  induction cs with
  | nil =>
    intro acc skip s hs
    cases skip with
    | zero =>
      simp only [searchRun, List.mem_singleton] at hs
      rw [hs]
      simp
    | succ n =>
      simp only [searchRun, List.mem_singleton] at hs
      rw [hs]
      simp
  | cons c rest ih =>
    intro acc skip s hs
    cases skip with
    | succ n => exact ih acc n s hs
    | zero =>
      by_cases hq : (!q.isEmpty && startsWithCI true q (c :: rest)) = true
      · have hstep : searchRun q acc 0 (c :: rest) =
            (acc.reverse, Tag.plain) :: ((c :: rest).take q.length, Tag.highlight) ::
              searchRun q [] (q.length - 1) rest := by
          simp [searchRun, hq]
        rw [hstep] at hs
        rcases List.mem_cons.mp hs with h1 | hs2
        · rw [h1]; simp
        · rcases List.mem_cons.mp hs2 with h2 | hs3
          · rw [h2]; simp
          · exact ih [] (q.length - 1) s hs3
      · have hstep : searchRun q acc 0 (c :: rest) = searchRun q (c :: acc) 0 rest := by
          simp [searchRun, hq]
        rw [hstep] at hs
        exact ih (c :: acc) 0 s hs

theorem searchRun_flatten (q : List Char) (cs : List Char) : ∀ acc skip,
    ((searchRun q acc skip cs).map Prod.fst).flatten = acc.reverse ++ cs.drop skip := by
  induction cs with
  | nil =>
    intro acc skip
    cases skip <;> simp [searchRun]
  | cons c rest ih =>
    intro acc skip
    cases skip with
    | succ n =>
      have hstep : searchRun q acc (n + 1) (c :: rest) = searchRun q acc n rest := rfl
      rw [hstep, ih acc n, List.drop_succ_cons]
    | zero =>
      by_cases hq : (!q.isEmpty && startsWithCI true q (c :: rest)) = true
      · have hstep : searchRun q acc 0 (c :: rest) =
            (acc.reverse, Tag.plain) :: ((c :: rest).take q.length, Tag.highlight) ::
              searchRun q [] (q.length - 1) rest := by
          simp [searchRun, hq]
        rw [hstep]
        simp only [List.map_cons, List.flatten_cons, ih [] (q.length - 1),
          List.reverse_nil, List.nil_append, List.drop_zero]
        have hqlen : 1 ≤ q.length := by
          cases q with
          | nil => simp at hq
          | cons a q => simp
        have htd : (c :: rest).take q.length ++ rest.drop (q.length - 1) = c :: rest := by
          obtain ⟨n, hn⟩ : ∃ n, q.length = n + 1 := ⟨q.length - 1, by omega⟩
          rw [hn]
          simp [List.take_succ_cons, List.take_append_drop]
        rw [htd]
      · have hstep : searchRun q acc 0 (c :: rest) = searchRun q (c :: acc) 0 rest := by
          simp [searchRun, hq]
        rw [hstep, ih (c :: acc) 0]
        simp

theorem markerLen_cons_cons (c0 c1 : Char) (rest : List Char) :
    markerLen (c0 :: c1 :: rest) =
      if c0 = '[' ∧ c1.isUpper then
        match (rest.drop (rest.takeWhile markerBody).length).head? with
        | some d =>
          if d = ']' then some ((rest.takeWhile markerBody).length + 3) else none
        | none => none
      else none := rfl

theorem markerLen_pos (cs : List Char) (k : Nat) (h : markerLen cs = some k) : 1 ≤ k := by
  rcases cs with _ | ⟨c0, _ | ⟨c1, rest⟩⟩
  · simp [markerLen] at h
  · simp [markerLen] at h
  · rw [markerLen_cons_cons] at h
    split at h
    · split at h
      · split at h
        · have := Option.some.inj h
          omega
        · simp at h
      · simp at h
    · simp at h

theorem redactionRun_flatten (cs : List Char) : ∀ acc skip,
    ((redactionRun acc skip cs).map Prod.fst).flatten = acc.reverse ++ cs.drop skip := by
  induction cs with
  | nil =>
    intro acc skip
    cases skip <;> simp [redactionRun]
  | cons c rest ih =>
    intro acc skip
    cases skip with
    | succ n =>
      have hstep : redactionRun acc (n + 1) (c :: rest) = redactionRun acc n rest := rfl
      rw [hstep, ih acc n, List.drop_succ_cons]
    | zero =>
      cases hm : markerLen (c :: rest) with
      | none =>
        have hstep : redactionRun acc 0 (c :: rest) = redactionRun (c :: acc) 0 rest := by
          simp [redactionRun, hm]
        rw [hstep, ih (c :: acc) 0]
        simp
      | some k =>
        have hstep : redactionRun acc 0 (c :: rest) =
            (acc.reverse, false) :: ((c :: rest).take k, true) ::
              redactionRun [] (k - 1) rest := by
          simp [redactionRun, hm]
        rw [hstep]
        simp only [List.map_cons, List.flatten_cons, ih [] (k - 1), List.reverse_nil,
          List.nil_append, List.drop_zero]
        have hk : 1 ≤ k := markerLen_pos _ _ hm
        have htd : (c :: rest).take k ++ rest.drop (k - 1) = c :: rest := by
          obtain ⟨n, hn⟩ : ∃ n, k = n + 1 := ⟨k - 1, by omega⟩
          rw [hn]
          simp [List.take_succ_cons, List.take_append_drop]
        rw [htd]

theorem takeWhile_eq_self_of_all (p : Char → Bool) :
    ∀ l : List Char, (∀ a ∈ l, p a = true) → l.takeWhile p = l := by
  intro l
  induction l with
  | nil => intro _; rfl
  | cons a l ih =>
    intro hall
    rw [List.takeWhile_cons, if_pos (hall a (by simp))]
    rw [ih fun b hb => hall b (by simp [hb])]

theorem markerLen_take (cs : List Char) (k : Nat) (h : markerLen cs = some k) :
    markerLen (cs.take k) = some k ∧ (cs.take k).length = k := by
  rcases cs with _ | ⟨c0, _ | ⟨c1, rest⟩⟩
  · simp [markerLen] at h
  · simp [markerLen] at h
  rw [markerLen_cons_cons] at h
  split at h
  case isFalse hcc => simp at h
  case isTrue hcc =>
  split at h
  case h_2 hh => simp at h
  case h_1 d hh =>
  split at h
  case isFalse hd => simp at h
  case isTrue hd =>
  subst hd
  have hk : (rest.takeWhile markerBody).length + 3 = k := Option.some.inj h
  set run := rest.takeWhile markerBody with hrun
  have hlt : run.length < rest.length := by
    by_contra hge
    rw [List.drop_of_length_le (by omega)] at hh
    simp at hh
  have hrtake : rest.take run.length = run := by
    have hpre : run <+: rest := by
      rw [hrun]
      exact List.takeWhile_prefix _
    have := List.prefix_iff_eq_take.mp hpre
    exact this.symm
  have hdropcons : ∃ tail, rest.drop run.length = ']' :: tail := by
    cases hdd : rest.drop run.length with
    | nil => rw [hdd] at hh; simp at hh
    | cons e tail =>
      rw [hdd] at hh
      simp at hh
      rw [hh]
      exact ⟨tail, rfl⟩
  obtain ⟨tail, htail⟩ := hdropcons
  have htake1 : rest.take (run.length + 1) = run ++ [']'] := by
    rw [List.take_add, hrtake, htail]
    rfl
  have hcstake : (c0 :: c1 :: rest).take k = c0 :: c1 :: (run ++ [']']) := by
    rw [← hk]
    have h3 : run.length + 3 = (run.length + 1) + 1 + 1 := by omega
    rw [h3, List.take_succ_cons, List.take_succ_cons, htake1]
  constructor
  · rw [hcstake, markerLen_cons_cons, if_pos hcc]
    have hallrun : ∀ a ∈ run, markerBody a = true := by
      intro a ha
      rw [hrun] at ha
      exact List.mem_takeWhile_imp ha
    have htw : (run ++ [']']).takeWhile markerBody = run := by
      rw [List.takeWhile_append]
      rw [takeWhile_eq_self_of_all markerBody run hallrun]
      simp [markerBody, List.takeWhile_cons]
    rw [htw]
    have hdl : (run ++ [']']).drop run.length = [']'] := List.drop_left run [']']
    rw [hdl]
    simp [← hk]
  · rw [hcstake]
    simp only [List.length_cons, List.length_append, List.length_singleton, List.length_nil]
    omega

theorem redactionRun_marker (cs : List Char) : ∀ acc skip,
    ∀ p ∈ redactionRun acc skip cs, p.2 = true → markerLen p.1 = some p.1.length := by
  induction cs with
  | nil =>
    intro acc skip p hp htag
    cases skip with
    | zero =>
      simp only [redactionRun, List.mem_singleton] at hp
      rw [hp] at htag
      simp at htag
    | succ n =>
      simp only [redactionRun, List.mem_singleton] at hp
      rw [hp] at htag
      simp at htag
  | cons c rest ih =>
    intro acc skip p hp htag
    cases skip with
    | succ n => exact ih acc n p hp htag
    | zero =>
      cases hm : markerLen (c :: rest) with
      | none =>
        have hstep : redactionRun acc 0 (c :: rest) = redactionRun (c :: acc) 0 rest := by
          simp [redactionRun, hm]
        rw [hstep] at hp
        exact ih (c :: acc) 0 p hp htag
      | some k =>
        have hstep : redactionRun acc 0 (c :: rest) =
            (acc.reverse, false) :: ((c :: rest).take k, true) ::
              redactionRun [] (k - 1) rest := by
          simp [redactionRun, hm]
        rw [hstep] at hp
        rcases List.mem_cons.mp hp with h1 | hp2
        · rw [h1] at htag
          simp at htag
        · rcases List.mem_cons.mp hp2 with h2 | hp3
          · rw [h2]
            obtain ⟨hm2, hl2⟩ := markerLen_take (c :: rest) k hm
            rw [hl2]
            exact hm2
          · exact ih [] (k - 1) p hp3 htag

theorem filter_red_map (ps : List (List Char × Bool)) :
    ((ps.map fun p => (String.mk p.1, if p.2 then Tag.redaction else Tag.plain)).filter
        fun s => s.2 == Tag.redaction) =
      (ps.filter Prod.snd).map fun p => (String.mk p.1, Tag.redaction) := by
  induction ps with
  | nil => rfl
  | cons p ps ih =>
    by_cases hp : p.2 = true
    · simp [List.filter_cons, hp, ih]
    · simp [List.filter_cons, hp, ih]

theorem filter_red_search (q : String) (ps : List (List Char × Bool)) :
    (((ps.map fun p =>
        if p.2 then [(String.mk p.1, Tag.redaction)]
        else (searchRun q.data [] 0 p.1).map fun s => (String.mk s.1, s.2)).flatten).filter
      fun s => s.2 == Tag.redaction) =
      (ps.filter Prod.snd).map fun p => (String.mk p.1, Tag.redaction) := by
  induction ps with
  | nil => rfl
  | cons p ps ih =>
    simp only [List.map_cons, List.flatten_cons, List.filter_append, ih]
    by_cases hp : p.2 = true
    · simp [List.filter_cons, hp]
    · have hnone : ((searchRun q.data [] 0 p.1).map
          fun s => (String.mk s.1, s.2)).filter (fun s => s.2 == Tag.redaction) = [] := by
        rw [List.filter_eq_nil_iff]
        intro s hs
        rw [List.mem_map] at hs
        obtain ⟨a, ha, rfl⟩ := hs
        have hne := searchRun_tags q.data p.1 [] 0 a ha
        simpa using hne
      simp [hp, hnone, List.filter_cons]

theorem renderPlain_filter (text : String) :
    (renderPlain text).filter (fun s => s.2 == Tag.redaction) =
      ((redactionScan text).filter Prod.snd).map fun p => (String.mk p.1, Tag.redaction) :=
  filter_red_map (redactionScan text)

theorem renderSearch_filter (q : String) (text : String) :
    (renderSearch q text).filter (fun s => s.2 == Tag.redaction) =
      ((redactionScan text).filter Prod.snd).map fun p => (String.mk p.1, Tag.redaction) :=
  filter_red_search q (redactionScan text)

theorem renderPlain_content (text : String) :
    ((renderPlain text).map fun s => s.1.data).flatten = text.data := by
  unfold renderPlain
  rw [List.map_map]
  have hscan : ((redactionScan text).map Prod.fst).flatten = text.data := by
    simpa [redactionScan] using redactionRun_flatten text.data [] 0
  simpa using hscan

theorem renderSearch_content (q : String) (text : String) :
    ((renderSearch q text).map fun s => s.1.data).flatten = text.data := by
  unfold renderSearch
  have hgen : ∀ ps : List (List Char × Bool),
      (((ps.map fun p =>
          if p.2 then [(String.mk p.1, Tag.redaction)]
          else (searchRun q.data [] 0 p.1).map fun s => (String.mk s.1, s.2)).flatten).map
        (fun s => s.1.data)).flatten = (ps.map Prod.fst).flatten := by
    intro ps
    induction ps with
    | nil => rfl
    | cons p ps ih =>
      simp only [List.map_cons, List.flatten_cons, List.map_append, List.flatten_append, ih]
      congr 1
      by_cases hp : p.2 = true
      · simp [hp]
      · simp only [hp, if_neg, Bool.false_eq_true, not_false_eq_true, if_false]
        rw [List.map_map]
        have hfl := searchRun_flatten q.data p.1 [] 0
        simpa using hfl
  rw [hgen]
  simpa [redactionScan] using redactionRun_flatten text.data [] 0

/-- C7: in `renderText`, for every input text and every (possibly absent or empty)
search query, (i) the emphasized (redaction-styled) spans of the output are exactly the
marker parts of the redaction split, in order, each as one single span — the search
query never re-splits them; (ii) the span texts concatenate back to the input, so
markers are rendered whole; (iii) every marker part is a full match of the
redaction-marker pattern (an opening bracket, an uppercase letter, then uppercase
letters, digits or spaces, then a closing bracket); and (iv) concretely, on
`"call me at [PHONE]"` with query `"PHONE"`, `[PHONE]` is rendered as a single
redaction-styled span. -/
theorem renderText_marker_isolation :
    (∀ text sq, (renderText text sq).filter (fun s => s.2 == Tag.redaction) =
      ((redactionScan text).filter Prod.snd).map fun p => (String.mk p.1, Tag.redaction)) ∧
    (∀ text sq, ((renderText text sq).map fun s => s.1.data).flatten = text.data) ∧
    (∀ text, ∀ p ∈ redactionScan text, p.2 = true → markerLen p.1 = some p.1.length) ∧
    renderText "call me at [PHONE]" (some "PHONE") =
      [("call me at ", Tag.plain), ("[PHONE]", Tag.redaction), ("", Tag.plain)] := by
  refine ⟨?_, ?_, ?_, by decide⟩
  · intro text sq
    cases sq with
    | none => exact renderPlain_filter text
    | some q =>
      by_cases hq : q = ""
      · show ((if q = "" then renderPlain text else renderSearch q text).filter _) = _
        rw [if_pos hq]
        exact renderPlain_filter text
      · show ((if q = "" then renderPlain text else renderSearch q text).filter _) = _
        rw [if_neg hq]
        exact renderSearch_filter q text
  · intro text sq
    cases sq with
    | none => exact renderPlain_content text
    | some q =>
      by_cases hq : q = ""
      · show (((if q = "" then renderPlain text else renderSearch q text).map _).flatten) = _
        rw [if_pos hq]
        exact renderPlain_content text
      · show (((if q = "" then renderPlain text else renderSearch q text).map _).flatten) = _
        rw [if_neg hq]
        exact renderSearch_content q text
  · intro text p hp htag
    exact redactionRun_marker text.data [] 0 p hp htag

/-- Witness for C7 at concrete inputs: the marker part of `"x[AB]y"` is a full pattern
match, and the spans of a plain text concatenate back to it. -/
theorem renderText_marker_isolation_witness :
    markerLen "[AB]".data = some "[AB]".data.length ∧
    ((renderText "ab" none).map fun s => s.1.data).flatten = "ab".data := by
  constructor
  · have h := renderText_marker_isolation.2.2.1 "x[AB]y" ("[AB]".data, true)
      (by decide) (by decide)
    simpa using h
  · exact renderText_marker_isolation.2.1 "ab" none

/-! ## C8: speaker relabeling does not influence grouping -/

/-- Everything of a paragraph except its display `speaker` field. -/
def paragraphCore (p : Paragraph) :
    ℚ × ℚ × String × Nat × Option String × Option EntityCounts × Option String :=
  (p.start, p.stop, p.text, p.segment_count, p.originalSpeaker, p.entity_counts,
    p.sentiment)

theorem carryEntities_originalSpeaker (m p : Paragraph) :
    (carryEntities m p).originalSpeaker = p.originalSpeaker := by
  unfold carryEntities
  split <;> rfl

theorem carrySentiment_originalSpeaker (m p : Paragraph) :
    (carrySentiment m p).originalSpeaker = p.originalSpeaker := by
  unfold carrySentiment
  split
  · split <;> rfl
  · rfl

theorem carryOver_originalSpeaker (P : List Paragraph) (p : Paragraph) :
    (carryOver P p).originalSpeaker = p.originalSpeaker := by
  unfold carryOver
  split
  · rw [carrySentiment_originalSpeaker, carryEntities_originalSpeaker]
  · rfl

theorem core_ruleParagraphs_label (re : RegexEngine) (opts : TranscriptionOptions)
    (L : List (String × String)) (ps : List Paragraph) :
    (ruleParagraphs re opts (labelParagraphs L ps)).map paragraphCore =
      (ruleParagraphs re opts ps).map paragraphCore := by
  unfold ruleParagraphs labelParagraphs
  by_cases hL : L.length > 0
  · rw [if_pos hL]
    by_cases hR : opts.textRulesEnabled ∧ 0 < (activeRulesOf opts).length
    · rw [if_pos hR, if_pos hR, List.map_map, List.map_map, List.map_map]
      congr 1
    · rw [if_neg hR, if_neg hR, List.map_map]
      congr 1
  · rw [if_neg hL]

theorem map_orig_label (L : List (String × String)) (ps : List Paragraph) :
    (labelParagraphs L ps).map Paragraph.originalSpeaker =
      ps.map Paragraph.originalSpeaker := by
  unfold labelParagraphs
  split
  · rw [List.map_map]
    congr 1
  · rfl

theorem map_orig_rule (re : RegexEngine) (opts : TranscriptionOptions)
    (ps : List Paragraph) :
    (ruleParagraphs re opts ps).map Paragraph.originalSpeaker =
      ps.map Paragraph.originalSpeaker := by
  unfold ruleParagraphs
  split
  · rw [List.map_map]
    congr 1
  · rfl

/-- C8: speaker relabeling does not influence grouping.  For every regex engine, raw
segment list, raw paragraph list, option record and any two speaker-label maps, the two
runs of `applyPostProcessing` produce paragraph lists that agree on everything except
possibly the display `speaker` string: boundaries (`start`/`end`), `text`,
`segment_count`, `originalSpeaker` and the carried annotations are identical
(`paragraphCore`), because detection runs on the raw segments before relabeling.
Moreover (second conjunct), when paragraph detection runs, each output record's
`originalSpeaker` is exactly the raw internal identifier the detector produced,
untouched by the label map. -/
theorem relabeling_preserves_grouping (re : RegexEngine) (rawSegments : List Segment)
    (rawParagraphs : List Paragraph) (opts : TranscriptionOptions)
    (L1 L2 : List (String × String)) :
    ((applyPostProcessing re rawSegments rawParagraphs
        { opts with speakerLabels := L1 }).paragraphs).map paragraphCore =
      ((applyPostProcessing re rawSegments rawParagraphs
        { opts with speakerLabels := L2 }).paragraphs).map paragraphCore ∧
    (opts.detectParagraphs = true → rawSegments ≠ [] →
      ((applyPostProcessing re rawSegments rawParagraphs
          { opts with speakerLabels := L1 }).paragraphs).map Paragraph.originalSpeaker =
        (detectParagraphsClient rawSegments opts.paragraphSilenceThreshold).map
          Paragraph.speaker) := by
  have h1 : (applyPostProcessing re rawSegments rawParagraphs
      { opts with speakerLabels := L1 }).paragraphs =
      ruleParagraphs re opts (labelParagraphs L1
        (paragraphBase rawSegments rawParagraphs opts)) := rfl
  have h2 : (applyPostProcessing re rawSegments rawParagraphs
      { opts with speakerLabels := L2 }).paragraphs =
      ruleParagraphs re opts (labelParagraphs L2
        (paragraphBase rawSegments rawParagraphs opts)) := rfl
  constructor
  · rw [h1, h2, core_ruleParagraphs_label, core_ruleParagraphs_label]
  · intro hd hne
    have hbase : paragraphBase rawSegments rawParagraphs opts =
        ((detectParagraphsClient rawSegments opts.paragraphSilenceThreshold).map
          fun p => { p with originalSpeaker := p.speaker }).map
            (carryOver rawParagraphs) := by
      unfold paragraphBase
      rw [if_pos ⟨hd, List.length_pos.mpr hne⟩]
    rw [h1, map_orig_rule, map_orig_label, hbase, List.map_map, List.map_map]
    congr 1
    funext p
    show (carryOver rawParagraphs { p with originalSpeaker := p.speaker }).originalSpeaker
      = p.speaker
    rw [carryOver_originalSpeaker]

/-- Sample options record for the C8 witness (defaults plus a threshold). -/
def optsW : TranscriptionOptions :=
  { paragraphSilenceThreshold := mkRat 4 5 }

/-- Witness for C8: with the label map renaming `S0` to `Alice`, the paragraphs still
carry the raw internal identifier in `originalSpeaker`. -/
theorem relabeling_preserves_grouping_witness :
    ((applyPostProcessing noRegex [segA] []
        { optsW with speakerLabels := [("S0", "Alice")] }).paragraphs).map
      Paragraph.originalSpeaker =
      (detectParagraphsClient [segA] optsW.paragraphSilenceThreshold).map
        Paragraph.speaker := by
  exact (relabeling_preserves_grouping noRegex [segA] [] optsW
    [("S0", "Alice")] []).2 rfl (by decide)

end Scribe
